import Mathlib

/-!
Verification development for the wealth-whisperer personal-finance app.

The budget-period resolver lives in src/pages/Budgets.tsx (fetchBudgets,
getBudgetStatus and the card rendering), and the report aggregator in
src/pages/Reports.tsx (fetchReportsData).  Dates are modelled at day
granularity: the JavaScript Date primitive (proleptic Gregorian calendar,
UTC) is embedded as a year/month/day triple together with a day-number
function modelling getTime()-style arithmetic, and the constructor
normalisation of new Date(year, monthIndex, day) is embedded as a
fuel-based (hence kernel-computable) carry/borrow normalisation.
Monetary amounts are rationals; the special non-finite results of
JavaScript division (Infinity, NaN) are modelled explicitly by JsNum.
-/

namespace WealthWhisperer

/-- Gregorian leap-year test (model of the calendar underlying JS Date). -/
def isLeap (y : Int) : Bool :=
  y % 4 == 0 && (y % 100 != 0 || y % 400 == 0)

/-- Number of days of month m (1..12) of year y; total function, months
outside 1..12 get the January length (never reached on valid dates). -/
def daysInMonth (y : Int) (m : Int) : Int :=
  if m = 2 then (if isLeap y then 29 else 28)
  else if m = 4 ∨ m = 6 ∨ m = 9 ∨ m = 11 then 30
  else 31

/-- A calendar date as stored/rendered by the app (YYYY-MM-DD). -/
structure Date where
  year : Int
  month : Int
  day : Int
deriving DecidableEq, Repr

/-- A real calendar date: month in 1..12, day in range for the month. -/
def Date.valid (x : Date) : Prop :=
  1 ≤ x.month ∧ x.month ≤ 12 ∧ 1 ≤ x.day ∧ x.day ≤ daysInMonth x.year x.month

instance (x : Date) : Decidable x.valid := by
  unfold Date.valid; infer_instance

/-- The extra day February gains in a leap year. -/
def leapDay (y : Int) : Int := if isLeap y then 1 else 0

/-- Cumulative day offset of the first of month m within year y. -/
def monthOffset (y : Int) (m : Int) : Int :=
  if m = 1 then 0
  else if m = 2 then 31
  else if m = 3 then 59 + leapDay y
  else if m = 4 then 90 + leapDay y
  else if m = 5 then 120 + leapDay y
  else if m = 6 then 151 + leapDay y
  else if m = 7 then 181 + leapDay y
  else if m = 8 then 212 + leapDay y
  else if m = 9 then 243 + leapDay y
  else if m = 10 then 273 + leapDay y
  else if m = 11 then 304 + leapDay y
  else 334 + leapDay y

/-- Number of leap years in the range (-infinity, y), normalised so that
differences count leap years between two years. -/
def leapCount (y : Int) : Int :=
  (y - 1) / 4 - (y - 1) / 100 + (y - 1) / 400

/-- Days since the Unix epoch 1970-01-01 of a date triple; this is the
day-granular model of Date.getTime() / (24*3600*1000). -/
def dayNumber (x : Date) : Int :=
  365 * (x.year - 1970) + (leapCount x.year - leapCount 1970)
    + monthOffset x.year x.month + (x.day - 1)

/-- Step to the following month, carrying into the year. -/
def nextMonth (y m : Int) : Int × Int :=
  if m = 12 then (y + 1, 1) else (y, m + 1)

/-- Step to the preceding month, borrowing from the year. -/
def prevMonth (y m : Int) : Int × Int :=
  if m = 1 then (y - 1, 12) else (y, m - 1)

/-- Carry a day count d ≥ 1 forward over month boundaries (fuel-based so
that the kernel can evaluate it; the callers always supply enough fuel). -/
def rollForwardAux : Nat → Int → Int → Int → Date
  | 0, y, m, d => ⟨y, m, d⟩
  | f + 1, y, m, d =>
    if d ≤ daysInMonth y m then ⟨y, m, d⟩
    else rollForwardAux f (nextMonth y m).1 (nextMonth y m).2 (d - daysInMonth y m)

/-- Borrow a day count d ≤ 0 from preceding months, then carry forward. -/
def normDayAux : Nat → Int → Int → Int → Date
  | 0, y, m, d => rollForwardAux d.toNat y m d
  | f + 1, y, m, d =>
    if 1 ≤ d then rollForwardAux d.toNat y m d
    else
      normDayAux f (prevMonth y m).1 (prevMonth y m).2
        (d + daysInMonth (prevMonth y m).1 (prevMonth y m).2)

/-- Normalise an out-of-range day-of-month the way the JS Date constructor
does (day 0 is the last day of the preceding month, overflow carries). -/
def normDay (y m d : Int) : Date :=
  normDayAux (1 - d).toNat y m d

/-- Model of the JS constructor new Date(y, monthIndex, day): the month
index is 0-based and is itself normalised into the year first. -/
def jsDate (y mIdx d : Int) : Date :=
  normDay (y + mIdx / 12) (mIdx % 12 + 1) d

/-- Model of new Date(x.getTime() + k*24*3600*1000). -/
def addDays (x : Date) (k : Int) : Date :=
  normDay x.year x.month (x.day + k)

/-! ### JavaScript numbers

Finite values are rationals; Infinity and NaN, which only ever arise from
division in this codebase, are modelled explicitly so that an unguarded
division by zero is visible in the embedding. -/

/-- A JavaScript number: finite, signed infinity (true = +Infinity), or NaN. -/
inductive JsNum where
  | fin : ℚ → JsNum
  | inf : Bool → JsNum
  | nan : JsNum
deriving DecidableEq, Repr

/-- JS division of finite operands: a / 0 is ±Infinity (NaN for 0 / 0). -/
def jsDiv (a b : ℚ) : JsNum :=
  if b = 0 then (if a = 0 then .nan else .inf (decide (0 < a))) else .fin (a / b)

/-- JS multiplication of a number by a finite constant. -/
def jsMulC (x : JsNum) (c : ℚ) : JsNum :=
  match x with
  | .fin a => .fin (a * c)
  | .inf s => if c = 0 then .nan else if 0 < c then .inf s else .inf !s
  | .nan => .nan

/-- Math.min on JS numbers (NaN-propagating). -/
def jsMin (a b : JsNum) : JsNum :=
  match a, b with
  | .nan, _ => .nan
  | _, .nan => .nan
  | .fin x, .fin y => .fin (min x y)
  | .inf true, b => b
  | a, .inf true => a
  | .inf false, _ => .inf false
  | .fin _, .inf false => .inf false

/-- Number(a) on an optional decimal field: Number(null) = 0. -/
def jsNum (a : Option ℚ) : ℚ := a.getD 0

/-! ### Stable comparator sort

Model of Array.prototype.sort with a comparator (required stable by the
JS spec): left-to-right insertion, a new element going after every
already-placed element that may stay before it. -/

/-- Insert x after the longest prefix of elements le-before it. -/
def insertD (le : α → α → Bool) (x : α) : List α → List α
  | [] => [x]
  | y :: ys => if le y x then y :: insertD le x ys else x :: y :: ys

/-- Stable sort by a boolean comparator. -/
def sortD (le : α → α → Bool) (l : List α) : List α :=
  l.foldl (fun acc x => insertD le x acc) []

/-! ### Data model (rows as fetched from the store) -/

/-- A category row as joined onto budgets (Budgets.tsx). -/
structure BCategory where
  id : String
  name : String
  color : String
  icon : String
deriving DecidableEq, Repr

/-- A budget row as fetched by fetchBudgets (Budgets.tsx); spent is not a
column, it is attached after the fact. -/
structure Budget where
  id : String
  name : String
  amount : ℚ
  period : String
  start_date : Date
  end_date : Option Date
  categories : Option BCategory
deriving DecidableEq, Repr

/-- An expense row as stored (user, amount, date, category reference). -/
structure ExpenseRow where
  user_id : String
  amount : Option ℚ
  expense_date : Date
  category_id : Option String
deriving DecidableEq, Repr

/-- A budget together with the spent value computed on read. -/
structure BudgetWithSpent extends Budget where
  spent : ℚ
deriving DecidableEq, Repr

/-! ### Period resolver (Budgets.tsx, fetchBudgets lines 101-112) -/

/-- End of the window over which spent is computed: a stored end_date is
used verbatim, otherwise it is derived from the period, defaulting to the
current date.  getMonth() is 0-based, hence the month-index arithmetic. -/
def resolveEnd (currentDate : Date) (b : Budget) : Date :=
  match b.end_date with
  | some e => e
  | none =>
    if b.period = "monthly" then
      jsDate b.start_date.year ((b.start_date.month - 1) + 1) 0
    else if b.period = "weekly" then
      addDays b.start_date 7
    else if b.period = "yearly" then
      jsDate (b.start_date.year + 1) (b.start_date.month - 1) b.start_date.day
    else currentDate

/-- The expense query issued per budget: user match plus an inclusive
date-window bound (Budgets.tsx lines 114-119). -/
def matchesWindow (uid : String) (b : Budget) (endD : Date) (e : ExpenseRow) : Bool :=
  e.user_id == uid
    && decide (dayNumber b.start_date ≤ dayNumber e.expense_date)
    && decide (dayNumber e.expense_date ≤ dayNumber endD)

/-- The conditional category filter (Budgets.tsx lines 121-123); the
filter is only added when budget.categories?.id is truthy. -/
def categoryFilter (b : Budget) (e : ExpenseRow) : Bool :=
  match b.categories with
  | some c => if c.id = "" then true else e.category_id == some c.id
  | none => true

/-- Spent so far: the sum of Number(amount) over the rows the per-budget
query returns (Budgets.tsx line 126). -/
def spentOf (db : List ExpenseRow) (uid : String) (currentDate : Date) (b : Budget) : ℚ :=
  ((db.filter fun e =>
      matchesWindow uid b (resolveEnd currentDate b) e && categoryFilter b e).map
    fun e => jsNum e.amount).sum

/-- fetchBudgets: every fetched budget row gets spent recomputed from the
expense set; nothing is read from or written to a stored spent value. -/
def fetchBudgetsModel (db : List ExpenseRow) (uid : String) (currentDate : Date)
    (rows : List Budget) : List BudgetWithSpent :=
  rows.map fun b => { toBudget := b, spent := spentOf db uid currentDate b }

/-- Budget progress percentage (Budgets.tsx lines 295 and 515): the guard
is JS truthiness of budget.spent, i.e. on the numerator. -/
def progressOf (spent : Option ℚ) (amount : ℚ) : JsNum :=
  match spent with
  | some s => if s = 0 then .fin 0 else jsMulC (jsDiv s amount) 100
  | none => .fin 0

/-- The value handed to the progress bar (Budgets.tsx line 563). -/
def renderedProgress (spent : Option ℚ) (amount : ℚ) : JsNum :=
  jsMin (progressOf spent amount) (.fin 100)

/-- The remaining amount displayed on the card (Budgets.tsx line 577). -/
def remainingOf (amount : ℚ) (spent : Option ℚ) : ℚ :=
  max 0 (amount - jsNum spent)

/-! ### Report aggregator (Reports.tsx, fetchReportsData) -/

/-- The category join on a report expense row (name and color). -/
structure CatRef where
  name : String
  color : String
deriving DecidableEq, Repr

/-- An expense row as fetched for reports (Reports.tsx lines 138-148). -/
structure RExpense where
  amount : Option ℚ
  expense_date : Date
  categories : Option CatRef
deriving DecidableEq, Repr

/-- Running total of Number(amount) (Reports.tsx line 171). -/
def totalExpensesOf (es : List RExpense) : ℚ :=
  (es.map fun e => jsNum e.amount).sum

/-- Map.set-style upsert on an insertion-ordered association list: an
existing key gets its value updated in place, a new key is appended. -/
def bumpA [DecidableEq κ] (upd : α → α) (mk : α) : List (κ × α) → κ → List (κ × α)
  | [], k => [(k, mk)]
  | (k0, v) :: rest, k =>
    if k0 = k then (k0, upd v) :: rest
    else (k0, v) :: bumpA upd mk rest k

/-- The keys of an association list, in order. -/
def keysA (l : List (κ × α)) : List κ := l.map fun p => p.1

/-- The total of a rational measure f over the entries stored at key k. -/
def amtA [DecidableEq κ] (f : α → ℚ) (l : List (κ × α)) (k : κ) : ℚ :=
  ((l.filter fun p => decide (p.1 = k)).map fun p => f p.2).sum

/-- Upsert for the per-category accumulator: adds to the amount of an
existing key, keeps the color of the first occurrence (Reports.tsx
lines 181-186). -/
def bumpCat (acc : List (String × ℚ × String)) (k : String) (a : ℚ) (col : String) :
    List (String × ℚ × String) :=
  bumpA (fun v => (v.1 + a, v.2)) (a, col) acc k

/-- The categoryMap fold (Reports.tsx lines 179-187): expenses without a
category join are skipped. -/
def categoryEntries (es : List RExpense) : List (String × ℚ × String) :=
  es.foldl
    (fun acc e =>
      match e.categories with
      | none => acc
      | some c => bumpCat acc c.name (jsNum e.amount) c.color)
    []

/-- One row of the category breakdown. -/
structure CategoryData where
  name : String
  amount : ℚ
  color : String
  percentage : ℚ
deriving DecidableEq, Repr

/-- Comparator (a, b) => b.amount - a.amount, i.e. descending by amount. -/
def catDesc (a b : CategoryData) : Bool := decide (b.amount ≤ a.amount)

/-- The category breakdown (Reports.tsx lines 203-211): percentage share
of the grand total guarded at 0, sorted descending, first six kept. -/
def categoryBreakdown (es : List RExpense) : List CategoryData :=
  ((sortD catDesc
      ((categoryEntries es).map fun p =>
        ⟨p.1, p.2.1, p.2.2,
          if 0 < totalExpensesOf es then p.2.1 / totalExpensesOf es * 100 else 0⟩)).take 6)

/-- Map.set-style upsert for the per-day accumulator (Reports.tsx
line 224). -/
def bumpDay (m : List (Date × ℚ)) (k : Date) (a : ℚ) : List (Date × ℚ) :=
  bumpA (fun q => q + a) a m k

/-- The dailyExpenses fold (Reports.tsx lines 220-226): only expenses on
or after the trend start are bucketed; comparison is by timestamp. -/
def dailyMap (trendStart : Date) (es : List RExpense) : List (Date × ℚ) :=
  es.foldl
    (fun acc e =>
      if dayNumber trendStart ≤ dayNumber e.expense_date then
        bumpDay acc e.expense_date (jsNum e.amount)
      else acc)
    []

/-- dailyExpenses.get(dateKey) || 0. -/
def lookupDay (m : List (Date × ℚ)) (k : Date) : ℚ :=
  match m.find? fun p => p.1 == k with
  | some p => p.2
  | none => 0

/-- floor((end - start) / 86400s) + 1 on day-aligned dates. -/
def daysInPeriodOf (s e : Date) : Int :=
  dayNumber e - dayNumber s + 1

/-- The trend loop (Reports.tsx lines 228-237): the index runs from
daysInPeriod - 1 down to 0, each entry keyed by trendStart + i days.  The
entry keeps the Date; the locale label put on it is presentation only. -/
def trendArray (trendStart endDate : Date) (es : List RExpense) : List (Date × ℚ) :=
  ((List.range (daysInPeriodOf trendStart endDate).toNat).reverse).map
    fun (i : Nat) =>
      (addDays trendStart (i : Int),
        lookupDay (dailyMap trendStart es) (addDays trendStart (i : Int)))

/-- averageDaily (Reports.tsx lines 240-241). -/
def averageDailyOf (totalExpenses : ℚ) (daysInRange : Int) : JsNum :=
  if 0 < daysInRange then jsDiv totalExpenses (daysInRange : ℚ) else .fin 0

/-- savingsRate (Reports.tsx line 242). -/
def savingsRateOf (totalBudget totalExpenses : ℚ) : JsNum :=
  if 0 < totalBudget then jsMulC (jsDiv (totalBudget - totalExpenses) totalBudget) 100
  else .fin 0

/-! ### Reading aggregates back (used to state the claims) -/

/-- The sum of the amounts of the expenses carrying category name k. -/
def catTotal (es : List RExpense) (k : String) : ℚ :=
  ((es.filter fun e =>
      match e.categories with
      | some c => decide (c.name = k)
      | none => false).map fun e => jsNum e.amount).sum

/-- The sum of the amounts of the in-scope expenses dated exactly k. -/
def dayTotal (s : Date) (es : List RExpense) (k : Date) : ℚ :=
  ((es.filter fun e =>
      decide (dayNumber s ≤ dayNumber e.expense_date)
        && decide (e.expense_date = k)).map fun e => jsNum e.amount).sum

/-! ### Sample data (used to instantiate theorems with hypotheses) -/

/-- A fixed current date for concrete instantiations. -/
def sampleToday : Date := ⟨2025, 6, 15⟩

/-- A sample category row. -/
def sampleCat : BCategory := ⟨"cat-1", "Food", "#EF4444", "utensils"⟩

/-- A monthly category budget starting 2024-02-05 with no stored end. -/
def sampleBudgetFood : Budget :=
  ⟨"b1", "Food Budget", 300, "monthly", ⟨2024, 2, 5⟩, none, some sampleCat⟩

/-- A budget with an unrecognised period string and no stored end. -/
def sampleBudgetOdd : Budget :=
  ⟨"b2", "Odd", 500, "daily", ⟨2024, 3, 1⟩, none, none⟩

/-- A yearly budget starting on a leap day. -/
def sampleBudgetLeap : Budget :=
  ⟨"b3", "Leap", 100, "yearly", ⟨2024, 2, 29⟩, none, none⟩

/-- A small expense table exercising user, window, category and null
amount handling. -/
def sampleDb : List ExpenseRow :=
  [⟨"u", some 50, ⟨2024, 2, 10⟩, some "cat-1"⟩,
   ⟨"u", some 30, ⟨2024, 2, 29⟩, some "cat-1"⟩,
   ⟨"u", some 20, ⟨2024, 2, 15⟩, some "cat-2"⟩,
   ⟨"u", some 40, ⟨2024, 3, 2⟩, some "cat-1"⟩,
   ⟨"v", some 60, ⟨2024, 2, 12⟩, some "cat-1"⟩,
   ⟨"u", none, ⟨2024, 2, 11⟩, some "cat-1"⟩]

/-- The worked example of spec section 8: two Food expenses and one
Travel expense in March 2024. -/
def sampleReport : List RExpense :=
  [⟨some 50, ⟨2024, 3, 1⟩, some ⟨"Food", "#EF4444"⟩⟩,
   ⟨some 30, ⟨2024, 3, 1⟩, some ⟨"Food", "#EF4444"⟩⟩,
   ⟨some 20, ⟨2024, 3, 2⟩, some ⟨"Travel", "#3B82F6"⟩⟩]

/-! ### Calendar lemmas -/

theorem daysInMonth_lb (y m : Int) : 28 ≤ daysInMonth y m := by
  unfold daysInMonth; split_ifs <;> omega

theorem daysInMonth_ub (y m : Int) : daysInMonth y m ≤ 31 := by
  unfold daysInMonth; split_ifs <;> omega

theorem isLeap_iff (y : Int) :
    isLeap y = true ↔ (y % 4 = 0 ∧ (y % 100 ≠ 0 ∨ y % 400 = 0)) := by
  simp [isLeap, Bool.and_eq_true, Bool.or_eq_true]

theorem leapCount_succ (y : Int) :
    leapCount (y + 1) = leapCount y + leapDay y := by
  unfold leapCount leapDay
  have hy : y + 1 - 1 = y := by ring
  rw [hy]
  split_ifs with h
  · rw [isLeap_iff] at h
    omega
  · rw [isLeap_iff] at h
    push_neg at h
    omega

theorem dn_day (y m d : Int) :
    dayNumber ⟨y, m, d⟩ = dayNumber ⟨y, m, 1⟩ + (d - 1) := by
  simp only [dayNumber]
  ring

theorem monthOffset_one (y : Int) : monthOffset y 1 = 0 := by
  norm_num [monthOffset]

theorem monthOffset_twelve (y : Int) : monthOffset y 12 = 334 + leapDay y := by
  norm_num [monthOffset]

theorem daysInMonth_twelve (y : Int) : daysInMonth y 12 = 31 := by
  norm_num [daysInMonth]

theorem nextMonth_twelve (y : Int) : nextMonth y 12 = (y + 1, 1) := by
  norm_num [nextMonth]

theorem dn_year_succ (y : Int) :
    dayNumber ⟨y + 1, 1, 1⟩ = dayNumber ⟨y, 1, 1⟩ + 365 + leapDay y := by
  simp only [dayNumber, monthOffset_one, leapCount_succ]
  ring

theorem offset_succ (y : Int) {m : Int} (h1 : 1 ≤ m) (h2 : m ≤ 11) :
    monthOffset y (m + 1) = monthOffset y m + daysInMonth y m := by
  have hL := daysInMonth_lb y m
  interval_cases m <;>
    simp only [monthOffset, daysInMonth, leapDay] <;>
    norm_num <;>
    split_ifs <;> omega

theorem dn_next_first (y : Int) {m : Int} (h1 : 1 ≤ m) (h2 : m ≤ 12) :
    dayNumber ⟨(nextMonth y m).1, (nextMonth y m).2, 1⟩
      = dayNumber ⟨y, m, 1⟩ + daysInMonth y m := by
  by_cases hm : m = 12
  · subst hm
    rw [nextMonth_twelve]
    show dayNumber ⟨y + 1, 1, 1⟩ = _
    rw [dn_year_succ]
    simp only [dayNumber, monthOffset_one, monthOffset_twelve, daysInMonth_twelve]
    ring
  · have hm11 : m ≤ 11 := by omega
    simp only [nextMonth, if_neg hm]
    simp only [dayNumber]
    rw [offset_succ y h1 hm11]
    ring

theorem prevMonth_bounds {m : Int} (h1 : 1 ≤ m) (h2 : m ≤ 12) (y : Int) :
    1 ≤ (prevMonth y m).2 ∧ (prevMonth y m).2 ≤ 12 := by
  unfold prevMonth
  split_ifs <;> refine ⟨?_, ?_⟩ <;> simp <;> omega

theorem nextMonth_bounds {m : Int} (h1 : 1 ≤ m) (h2 : m ≤ 12) (y : Int) :
    1 ≤ (nextMonth y m).2 ∧ (nextMonth y m).2 ≤ 12 := by
  unfold nextMonth
  split_ifs <;> refine ⟨?_, ?_⟩ <;> simp <;> omega

theorem next_prevMonth (y : Int) {m : Int} (h1 : 1 ≤ m) (h2 : m ≤ 12) :
    nextMonth (prevMonth y m).1 (prevMonth y m).2 = (y, m) := by
  by_cases hm : m = 1
  · subst hm
    simp [prevMonth, nextMonth]
  · rw [prevMonth, if_neg hm]
    rw [nextMonth]
    simp only
    rw [if_neg (by omega : ¬(m - 1 = 12))]
    simp only [Prod.mk.injEq, true_and]
    omega

theorem dn_prev_first (y : Int) {m : Int} (h1 : 1 ≤ m) (h2 : m ≤ 12) :
    dayNumber ⟨y, m, 1⟩
      = dayNumber ⟨(prevMonth y m).1, (prevMonth y m).2, 1⟩
        + daysInMonth (prevMonth y m).1 (prevMonth y m).2 := by
  have hb := prevMonth_bounds h1 h2 y
  have h := dn_next_first (prevMonth y m).1 hb.1 hb.2
  rw [next_prevMonth y h1 h2] at h
  exact h

theorem rollForwardAux_spec :
    ∀ (f : Nat) (y m d : Int), 1 ≤ m → m ≤ 12 → 1 ≤ d → d ≤ 28 * f + 28 →
      (rollForwardAux f y m d).valid
        ∧ dayNumber (rollForwardAux f y m d) = dayNumber ⟨y, m, 1⟩ + (d - 1) := by
  intro f
  induction f with
  | zero =>
    intro y m d h1 h2 hd1 hd2
    have hlb := daysInMonth_lb y m
    simp only [rollForwardAux]
    exact ⟨⟨h1, h2, hd1, show d ≤ daysInMonth y m by omega⟩, dn_day y m d⟩
  | succ f ih =>
    intro y m d h1 h2 hd1 hd2
    by_cases hle : d ≤ daysInMonth y m
    · simp only [rollForwardAux, if_pos hle]
      exact ⟨⟨h1, h2, hd1, hle⟩, dn_day y m d⟩
    · simp only [rollForwardAux, if_neg hle]
      have hub := daysInMonth_ub y m
      have hlb := daysInMonth_lb y m
      have hnb := nextMonth_bounds h1 h2 y
      have := ih (nextMonth y m).1 (nextMonth y m).2 (d - daysInMonth y m)
        hnb.1 hnb.2 (by omega) (by omega)
      refine ⟨this.1, ?_⟩
      rw [this.2, dn_next_first y h1 h2]
      ring

theorem normDayAux_spec :
    ∀ (f : Nat) (y m d : Int), 1 ≤ m → m ≤ 12 → 1 - d ≤ 28 * f →
      (normDayAux f y m d).valid
        ∧ dayNumber (normDayAux f y m d) = dayNumber ⟨y, m, 1⟩ + (d - 1) := by
  intro f
  induction f with
  | zero =>
    intro y m d h1 h2 hf
    have hd1 : 1 ≤ d := by omega
    simp only [normDayAux]
    exact rollForwardAux_spec d.toNat y m d h1 h2 hd1 (by omega)
  | succ f ih =>
    intro y m d h1 h2 hf
    by_cases hd : 1 ≤ d
    · simp only [normDayAux, if_pos hd]
      exact rollForwardAux_spec d.toNat y m d h1 h2 hd (by omega)
    · simp only [normDayAux, if_neg hd]
      have hpb := prevMonth_bounds h1 h2 y
      have hlb := daysInMonth_lb (prevMonth y m).1 (prevMonth y m).2
      have := ih (prevMonth y m).1 (prevMonth y m).2
        (d + daysInMonth (prevMonth y m).1 (prevMonth y m).2) hpb.1 hpb.2 (by omega)
      refine ⟨this.1, ?_⟩
      rw [this.2, dn_prev_first y h1 h2]
      ring

theorem normDay_spec (y : Int) {m : Int} (d : Int) (h1 : 1 ≤ m) (h2 : m ≤ 12) :
    (normDay y m d).valid
      ∧ dayNumber (normDay y m d) = dayNumber ⟨y, m, 1⟩ + (d - 1) := by
  unfold normDay
  exact normDayAux_spec (1 - d).toNat y m d h1 h2 (by omega)

theorem addDays_spec {x : Date} (hx : x.valid) (k : Int) :
    (addDays x k).valid ∧ dayNumber (addDays x k) = dayNumber x + k := by
  obtain ⟨h1, h2, h3, h4⟩ := hx
  have := normDay_spec x.year (x.day + k) h1 h2
  refine ⟨this.1, ?_⟩
  rw [addDays, this.2, dn_day x.year x.month x.day]
  · ring

theorem offset_mono (y : Int) :
    ∀ (k : Nat) (m : Int), 1 ≤ m → m + k ≤ 12 →
      monthOffset y m ≤ monthOffset y (m + k) := by
  intro k
  induction k with
  | zero => intro m _ _; simp
  | succ k ih =>
    intro m h1 h2
    have hk : m + (k : Int) ≤ 11 := by push_cast at h2 ⊢; omega
    have h3 := ih m h1 (by omega)
    have h4 := offset_succ y (m := m + k) (by omega) hk
    have hlb := daysInMonth_lb y (m + k)
    have hcast : m + ((k : Nat) + 1 : Nat) = (m + k) + 1 := by push_cast; ring
    rw [hcast, h4]
    omega

theorem offset_dim_le (y : Int) {m1 m2 : Int} (h1 : 1 ≤ m1) (h2 : m1 < m2) (h3 : m2 ≤ 12) :
    monthOffset y m1 + daysInMonth y m1 ≤ monthOffset y m2 := by
  rw [← offset_succ y h1 (by omega)]
  have hk := offset_mono y (m2 - (m1 + 1)).toNat (m1 + 1) (by omega) (by omega)
  have : m1 + 1 + ((m2 - (m1 + 1)).toNat : Int) = m2 := by omega
  rwa [this] at hk

theorem leapDay_nonneg (y : Int) : 0 ≤ leapDay y := by
  unfold leapDay; split_ifs <;> omega

set_option maxHeartbeats 1000000 in
theorem monthOffset_nonneg (y m : Int) : 0 ≤ monthOffset y m := by
  have := leapDay_nonneg y
  unfold monthOffset
  split_ifs <;> omega

theorem offset_dim_le_year (y : Int) {m : Int} (h1 : 1 ≤ m) (h2 : m ≤ 12) :
    monthOffset y m + daysInMonth y m ≤ 365 + leapDay y := by
  by_cases hm : m = 12
  · subst hm
    rw [monthOffset_twelve, daysInMonth_twelve]
    omega
  · have h := offset_dim_le y h1 (by omega : m < 12) le_rfl
    rw [monthOffset_twelve] at h
    have hub := daysInMonth_ub y 12
    have := daysInMonth_lb y 12
    omega

theorem dn_year_lb {x : Date} (hx : x.valid) :
    dayNumber ⟨x.year, 1, 1⟩ ≤ dayNumber x := by
  obtain ⟨h1, h2, h3, h4⟩ := hx
  simp only [dayNumber, monthOffset_one]
  have := monthOffset_nonneg x.year x.month
  omega

theorem dn_year_ub {x : Date} (hx : x.valid) :
    dayNumber x < dayNumber ⟨x.year + 1, 1, 1⟩ := by
  obtain ⟨h1, h2, h3, h4⟩ := hx
  rw [dn_year_succ]
  have hy := offset_dim_le_year x.year h1 h2
  simp only [dayNumber, monthOffset_one]
  omega

theorem dn_year_first_mono (y : Int) :
    ∀ (k : Nat), dayNumber ⟨y, 1, 1⟩ + 365 * k ≤ dayNumber ⟨y + k, 1, 1⟩ := by
  intro k
  induction k with
  | zero => simp
  | succ k ih =>
    have hy := dn_year_succ (y + k)
    have hl := leapDay_nonneg (y + k)
    have hcast : y + ((k : Nat) + 1 : Nat) = (y + k) + 1 := by push_cast; ring
    rw [hcast]
    push_cast
    omega

theorem dayNumber_inj {x z : Date} (hx : x.valid) (hz : z.valid)
    (h : dayNumber x = dayNumber z) : x = z := by
  have hyear : x.year = z.year := by
    by_contra hne
    rcases lt_or_gt_of_ne hne with hlt | hgt
    · have h1 := dn_year_ub hx
      have h2 := dn_year_lb hz
      have h3 := dn_year_first_mono (x.year + 1) (z.year - (x.year + 1)).toNat
      have h4 : x.year + 1 + ((z.year - (x.year + 1)).toNat : Int) = z.year := by omega
      rw [h4] at h3
      omega
    · have h1 := dn_year_ub hz
      have h2 := dn_year_lb hx
      have h3 := dn_year_first_mono (z.year + 1) (x.year - (z.year + 1)).toNat
      have h4 : z.year + 1 + ((x.year - (z.year + 1)).toNat : Int) = x.year := by omega
      rw [h4] at h3
      omega
  obtain ⟨hx1, hx2, hx3, hx4⟩ := hx
  obtain ⟨hz1, hz2, hz3, hz4⟩ := hz
  rw [← hyear] at hz4
  have hdn : monthOffset x.year x.month + (x.day - 1)
      = monthOffset x.year z.month + (z.day - 1) := by
    simp only [dayNumber] at h
    rw [← hyear] at h
    omega
  have hmonth : x.month = z.month := by
    by_contra hne
    rcases lt_or_gt_of_ne hne with hlt | hgt
    · have := offset_dim_le x.year hx1 hlt hz2
      omega
    · have := offset_dim_le x.year hz1 hgt hx2
      omega
  rw [← hmonth] at hdn
  have hday : x.day = z.day := by omega
  cases x; cases z
  simp_all

/-! ### Behaviour of the JS constructor on the arguments the app passes -/

theorem jsDate_reduce (y : Int) {mIdx : Int} (d : Int) (h0 : 0 ≤ mIdx) (h11 : mIdx ≤ 11) :
    jsDate y mIdx d = normDay y (mIdx + 1) d := by
  unfold jsDate
  have h1 : mIdx / 12 = 0 := by omega
  have h2 : mIdx % 12 = mIdx := by omega
  rw [h1, h2, add_zero]

theorem jsDate_twelve (y d : Int) : jsDate y 12 d = normDay (y + 1) 1 d := by
  unfold jsDate
  norm_num

/-- new Date(y, m, 0) with 1-based m in 1..12 is the last day of month m
of year y (day 0 borrows from the preceding month index m, which is the
1-based month m). -/
theorem jsDate_last_day (y : Int) {m : Int} (h1 : 1 ≤ m) (h2 : m ≤ 12) :
    jsDate y m 0 = ⟨y, m, daysInMonth y m⟩ := by
  have hlb := daysInMonth_lb y m
  have hval : (⟨y, m, daysInMonth y m⟩ : Date).valid :=
    ⟨h1, h2, show (1 : Int) ≤ daysInMonth y m by omega, le_rfl⟩
  by_cases hm : m = 12
  · subst hm
    rw [jsDate_twelve]
    have hs := normDay_spec (y + 1) (m := 1) 0 le_rfl (by norm_num)
    refine dayNumber_inj hs.1 hval ?_
    rw [hs.2]
    have hn : dayNumber ⟨y + 1, 1, 1⟩ = dayNumber ⟨y, 12, 1⟩ + 31 := by
      have h := dn_next_first y (m := 12) (by norm_num) le_rfl
      rw [nextMonth_twelve, daysInMonth_twelve] at h
      exact h
    rw [daysInMonth_twelve, dn_day y 12 31]
    omega
  · rw [jsDate_reduce y 0 (by omega) (by omega)]
    have hs := normDay_spec y (m := m + 1) 0 (by omega) (by omega)
    refine dayNumber_inj hs.1 hval ?_
    rw [hs.2]
    have hn : dayNumber ⟨y, m + 1, 1⟩ = dayNumber ⟨y, m, 1⟩ + daysInMonth y m := by
      have h := dn_next_first y h1 h2
      have hnm : nextMonth y m = (y, m + 1) := by
        unfold nextMonth; rw [if_neg hm]
      rw [hnm] at h
      exact h
    rw [dn_day y m (daysInMonth y m)]
    omega

/-- February is the only month whose length depends on the year. -/
theorem daysInMonth_indep {m : Int} (hm : m ≠ 2) (y z : Int) :
    daysInMonth y m = daysInMonth z m := by
  unfold daysInMonth
  rw [if_neg hm, if_neg hm]

theorem daysInMonth_feb_le (y : Int) : daysInMonth y 2 ≤ 29 := by
  unfold daysInMonth
  rw [if_pos rfl]
  split_ifs <;> omega

/-! ### Claim theorems -/

/-- Claim C2: for every budget with period monthly and no stored end_date,
the resolved end date is the last calendar day of the month containing
start_date. -/
theorem monthly_end_is_last_day (cd : Date) (b : Budget)
    (hend : b.end_date = none) (hper : b.period = "monthly")
    (hval : b.start_date.valid) :
    resolveEnd cd b
      = ⟨b.start_date.year, b.start_date.month,
         daysInMonth b.start_date.year b.start_date.month⟩ := by
  obtain ⟨h1, h2, h3, h4⟩ := hval
  simp only [resolveEnd, hend, hper]
  have hm : b.start_date.month - 1 + 1 = b.start_date.month := by ring
  rw [hm, jsDate_last_day b.start_date.year h1 h2]
  simp

/-- Claim C2 witness: a leap-February start resolves to February 29. -/
theorem monthly_end_witness :
    resolveEnd sampleToday sampleBudgetFood = ⟨2024, 2, 29⟩ :=
  (monthly_end_is_last_day sampleToday sampleBudgetFood rfl rfl (by decide)).trans
    (by decide)

/-- Claim C3 counterexample: a yearly budget starting on the leap day
2024-02-29 resolves to 2025-03-01, not to the same month and day of the
following year. -/
theorem yearly_end_claim_cex :
    resolveEnd sampleToday sampleBudgetLeap = ⟨2025, 3, 1⟩
      ∧ resolveEnd sampleToday sampleBudgetLeap ≠ ⟨2025, 2, 29⟩ := by
  constructor <;> decide

/-- Claim C3 amended: for every budget with period yearly and no stored
end_date, the resolved end keeps the same month and day with the year
incremented whenever that day exists in the target month of the next
year; the only valid start for which it does not (February 29 followed by
a non-leap year) rolls over to March 1. -/
theorem yearly_end_amended (cd : Date) (b : Budget)
    (hend : b.end_date = none) (hper : b.period = "yearly")
    (hval : b.start_date.valid) :
    (b.start_date.day ≤ daysInMonth (b.start_date.year + 1) b.start_date.month →
      resolveEnd cd b = ⟨b.start_date.year + 1, b.start_date.month, b.start_date.day⟩)
    ∧ (¬ b.start_date.day ≤ daysInMonth (b.start_date.year + 1) b.start_date.month →
      resolveEnd cd b = ⟨b.start_date.year + 1, 3, 1⟩) := by
  obtain ⟨h1, h2, h3, h4⟩ := hval
  have hm : b.start_date.month - 1 + 1 = b.start_date.month := by ring
  have hres : resolveEnd cd b
      = normDay (b.start_date.year + 1) b.start_date.month b.start_date.day := by
    simp only [resolveEnd, hend, hper]
    rw [jsDate_reduce (b.start_date.year + 1) b.start_date.day (by omega) (by omega), hm]
    rw [if_neg (by decide), if_neg (by decide)]
    simp
  have hs := normDay_spec (b.start_date.year + 1) (m := b.start_date.month)
    b.start_date.day h1 h2
  constructor
  · intro hle
    rw [hres]
    refine dayNumber_inj hs.1 ⟨h1, h2, h3, hle⟩ ?_
    rw [hs.2, dn_day (b.start_date.year + 1) b.start_date.month b.start_date.day]
  · intro hgt
    push_neg at hgt
    have hm2 : b.start_date.month = 2 := by
      by_contra hne
      rw [daysInMonth_indep hne (b.start_date.year + 1) b.start_date.year] at hgt
      omega
    rw [hm2] at hgt h4 hs
    have hd29 : b.start_date.day = 29 ∧ daysInMonth (b.start_date.year + 1) 2 = 28 := by
      have hlA := daysInMonth_lb (b.start_date.year + 1) 2
      have hlB : daysInMonth b.start_date.year 2 ≤ 29 := daysInMonth_feb_le _
      have hlC : daysInMonth (b.start_date.year + 1) 2 ≤ 29 := daysInMonth_feb_le _
      omega
    rw [hres, hm2]
    have hval3 : (⟨b.start_date.year + 1, 3, 1⟩ : Date).valid := by
      refine ⟨by norm_num, by norm_num, le_rfl, ?_⟩
      have := daysInMonth_lb (b.start_date.year + 1) 3
      show (1 : Int) ≤ daysInMonth (b.start_date.year + 1) 3
      omega
    refine dayNumber_inj hs.1 hval3 ?_
    rw [hs.2, hd29.1]
    have hn : dayNumber ⟨b.start_date.year + 1, 3, 1⟩
        = dayNumber ⟨b.start_date.year + 1, 2, 1⟩ + daysInMonth (b.start_date.year + 1) 2 := by
      have h := dn_next_first (b.start_date.year + 1) (m := 2) (by norm_num) (by norm_num)
      have hnm : nextMonth (b.start_date.year + 1) 2 = (b.start_date.year + 1, 3) := by
        unfold nextMonth; norm_num
      rw [hnm] at h
      exact h
    rw [hd29.2] at hn
    omega

/-- Claim C3 amended witness: a leap-day start rolls to March 1 and an
ordinary start keeps its month and day. -/
theorem yearly_end_amended_witness :
    (¬ (29 : Int) ≤ daysInMonth 2025 2)
      ∧ resolveEnd sampleToday sampleBudgetLeap = ⟨2025, 3, 1⟩ :=
  ⟨by decide,
    (yearly_end_amended sampleToday sampleBudgetLeap rfl rfl (by decide)).2 (by decide)⟩

/-- Claim C4: a stored end_date is used verbatim as the window end, and a
period outside weekly/monthly/yearly with no stored end_date raises no
error and resolves to the current date. -/
theorem explicit_end_and_fallback (cd : Date) (b : Budget) :
    (∀ e, b.end_date = some e → resolveEnd cd b = e)
    ∧ (b.end_date = none → b.period ≠ "monthly" → b.period ≠ "weekly" →
        b.period ≠ "yearly" → resolveEnd cd b = cd) := by
  constructor
  · intro e he
    simp [resolveEnd, he]
  · intro hend hm hw hy
    simp [resolveEnd, hend, hm, hw, hy]

/-- Claim C4 witness: a stored end wins, and an unknown period falls back
to the current date. -/
theorem explicit_end_and_fallback_witness :
    resolveEnd sampleToday { sampleBudgetFood with end_date := some ⟨2024, 7, 1⟩ }
        = ⟨2024, 7, 1⟩
      ∧ resolveEnd sampleToday sampleBudgetOdd = sampleToday :=
  ⟨(explicit_end_and_fallback sampleToday _).1 ⟨2024, 7, 1⟩ rfl,
    (explicit_end_and_fallback sampleToday sampleBudgetOdd).2 rfl
      (by decide) (by decide) (by decide)⟩

/-- Claim C1: the spent value attached to every budget on read is the sum
of Number(amount) over the user's expenses dated inside the inclusive
resolved window, restricted to the budget's category when one is set and
unrestricted when none is; it is a pure function of the expense set. -/
theorem budget_spent_is_window_sum (db : List ExpenseRow) (uid : String) (cd : Date)
    (rows : List Budget) (bw : BudgetWithSpent)
    (hbw : bw ∈ fetchBudgetsModel db uid cd rows)
    (hcat : ∀ c, bw.categories = some c → c.id ≠ "") :
    bw.spent = ((db.filter fun e =>
        e.user_id == uid
          && decide (dayNumber bw.start_date ≤ dayNumber e.expense_date)
          && decide (dayNumber e.expense_date ≤ dayNumber (resolveEnd cd bw.toBudget))
          && (match bw.categories with
              | some c => e.category_id == some c.id
              | none => true)).map fun e => jsNum e.amount).sum := by
  rcases List.mem_map.mp hbw with ⟨b, hb, rfl⟩
  show spentOf db uid cd b
      = ((db.filter fun e =>
          e.user_id == uid
            && decide (dayNumber b.start_date ≤ dayNumber e.expense_date)
            && decide (dayNumber e.expense_date ≤ dayNumber (resolveEnd cd b))
            && (match b.categories with
                | some c => e.category_id == some c.id
                | none => true)).map fun e => jsNum e.amount).sum
  unfold spentOf
  congr 1
  congr 1
  refine List.filter_congr ?_
  intro e he
  unfold matchesWindow categoryFilter
  cases hc : b.categories with
  | none => simp
  | some c =>
    have hid : c.id ≠ "" := hcat c
      (show ({ toBudget := b, spent := spentOf db uid cd b } : BudgetWithSpent).categories
          = some c from hc)
    simp [hid]

/-- Claim C1 witness: on the sample table the category budget sums the
two in-window matching amounts plus a null amount counted as zero. -/
theorem budget_spent_witness :
    (∀ c, sampleBudgetFood.categories = some c → c.id ≠ "")
      ∧ spentOf sampleDb "u" sampleToday sampleBudgetFood
        = ((sampleDb.filter fun e =>
            e.user_id == "u"
              && decide (dayNumber sampleBudgetFood.start_date ≤ dayNumber e.expense_date)
              && decide (dayNumber e.expense_date
                  ≤ dayNumber (resolveEnd sampleToday sampleBudgetFood))
              && (match sampleBudgetFood.categories with
                  | some c => e.category_id == some c.id
                  | none => true)).map fun e => jsNum e.amount).sum
      ∧ spentOf sampleDb "u" sampleToday sampleBudgetFood = 80 :=
  ⟨fun c hc => by
      obtain rfl := Option.some_injective _ (show some sampleCat = some c from hc)
      decide,
    budget_spent_is_window_sum sampleDb "u" sampleToday [sampleBudgetFood]
      { toBudget := sampleBudgetFood,
        spent := spentOf sampleDb "u" sampleToday sampleBudgetFood }
      (List.mem_singleton.mpr rfl)
      (fun c hc => by
        obtain rfl := Option.some_injective _ (show some sampleCat = some c from hc)
        decide),
    by
      have hre : resolveEnd sampleToday sampleBudgetFood = ⟨2024, 2, 29⟩ := by decide
      simp +decide [spentOf, hre, sampleDb, sampleBudgetFood, matchesWindow,
        categoryFilter, sampleCat, jsNum]
      norm_num⟩

/-- Case analysis of the rendered progress value: it is either a finite
value at most 100 or negative Infinity. -/
theorem renderedProgress_cases (spent : Option ℚ) (amount : ℚ) :
    (∃ q, renderedProgress spent amount = .fin q ∧ q ≤ 100)
      ∨ renderedProgress spent amount = .inf false := by
  unfold renderedProgress
  rcases spent with _ | s
  · exact Or.inl ⟨min 0 100, rfl, by norm_num⟩
  · by_cases hs : s = 0
    · subst hs
      rw [show progressOf (some 0) amount = .fin 0 by simp [progressOf]]
      exact Or.inl ⟨min 0 100, rfl, by norm_num⟩
    · rw [show progressOf (some s) amount = jsMulC (jsDiv s amount) 100 by
        simp [progressOf, hs]]
      unfold jsDiv
      by_cases ha : amount = 0
      · rw [if_pos ha, if_neg hs]
        simp only [jsMulC]
        rw [if_neg (by norm_num : ¬(100 : ℚ) = 0), if_pos (by norm_num : (0 : ℚ) < 100)]
        rcases hsg : decide (0 < s) with _ | _
        · exact Or.inr rfl
        · exact Or.inl ⟨100, rfl, le_rfl⟩
      · rw [if_neg ha]
        exact Or.inl ⟨min (s / amount * 100) 100, rfl, min_le_right _ _⟩

/-- Claim C10: the remaining amount shown on a budget card is
max(0, amount - spent), hence never negative, and the progress-bar value
is clamped to at most 100. -/
theorem remaining_and_progress_clamped (amount : ℚ) (spent : Option ℚ) :
    remainingOf amount spent = max 0 (amount - spent.getD 0)
      ∧ 0 ≤ remainingOf amount spent
      ∧ (∀ q, renderedProgress spent amount = .fin q → q ≤ 100)
      ∧ renderedProgress spent amount ≠ .inf true
      ∧ renderedProgress spent amount ≠ .nan := by
  refine ⟨rfl, le_max_left _ _, ?_, ?_, ?_⟩ <;>
    rcases renderedProgress_cases spent amount with ⟨q, hq, hle⟩ | hneg
  · intro r hr
    rw [hq] at hr
    cases hr
    exact hle
  · intro r hr
    rw [hneg] at hr
    cases hr
  · rw [hq]
    intro h
    cases h
  · rw [hneg]
    intro h
    cases h
  · rw [hq]
    intro h
    cases h
  · rw [hneg]
    intro h
    cases h

/-- Claim C10 witness: overspending a 50 budget by 150 renders remaining 0
and a progress value of exactly 100. -/
theorem remaining_and_progress_witness :
    remainingOf 50 (some 200) = max 0 ((50 : ℚ) - 200)
      ∧ (0 : ℚ) ≤ remainingOf 50 (some 200)
      ∧ (100 : ℚ) ≤ 100 :=
  ⟨(remaining_and_progress_clamped 50 (some 200)).1,
    (remaining_and_progress_clamped 50 (some 200)).2.1,
    (remaining_and_progress_clamped 50 (some 200)).2.2.1 100
      (by norm_num [renderedProgress, progressOf, jsDiv, jsMulC, jsMin])⟩

/-- Claim C8 counterexample: getBudgetStatus guards the division on the
numerator spent, so a budget with amount 0 and spent 500 yields a
progress percentage of +Infinity, not 0. -/
theorem divide_guard_claim_cex :
    progressOf (some 500) 0 = .inf true ∧ progressOf (some 500) 0 ≠ .fin 0 := by
  constructor <;> decide

/-- Claim C8 amended: averageDaily and savingsRate are guarded divisions
returning finite values and 0 on a non-positive denominator; the
budget-progress percentage is 0 when spent is absent or 0, but its
denominator is unguarded: with amount 0 and spent nonzero it evaluates to
signed Infinity. -/
theorem divide_guard_amended :
    (∀ (t : ℚ) (dr : Int), (∃ q, averageDailyOf t dr = .fin q)
        ∧ (dr ≤ 0 → averageDailyOf t dr = .fin 0))
      ∧ (∀ tb te : ℚ, (∃ q, savingsRateOf tb te = .fin q)
          ∧ (tb ≤ 0 → savingsRateOf tb te = .fin 0))
      ∧ (∀ amount : ℚ, progressOf none amount = .fin 0
          ∧ progressOf (some 0) amount = .fin 0)
      ∧ (∀ s : ℚ, s ≠ 0 → progressOf (some s) 0 = .inf (decide (0 < s))) := by
  refine ⟨?_, ?_, ?_, ?_⟩
  · intro t dr
    constructor
    · by_cases h : 0 < dr
      · refine ⟨t / (dr : ℚ), ?_⟩
        unfold averageDailyOf jsDiv
        rw [if_pos h, if_neg (by exact_mod_cast h.ne')]
      · exact ⟨0, by unfold averageDailyOf; rw [if_neg h]⟩
    · intro h
      unfold averageDailyOf
      rw [if_neg (by omega)]
  · intro tb te
    constructor
    · by_cases h : 0 < tb
      · refine ⟨(tb - te) / tb * 100, ?_⟩
        unfold savingsRateOf jsDiv jsMulC
        rw [if_pos h, if_neg h.ne']
      · exact ⟨0, by unfold savingsRateOf; rw [if_neg h]⟩
    · intro h
      unfold savingsRateOf
      rw [if_neg (not_lt.mpr h)]
  · intro amount
    exact ⟨rfl, by simp [progressOf]⟩
  · intro s hs
    simp only [progressOf, if_neg hs]
    unfold jsDiv
    rw [if_pos rfl, if_neg hs]
    simp only [jsMulC]
    rw [if_neg (by norm_num : ¬(100 : ℚ) = 0), if_pos (by norm_num : (0 : ℚ) < 100)]

/-- Claim C8 amended witness: a zero day count and a zero budget give 0,
and a zero-amount budget with positive spending gives +Infinity. -/
theorem divide_guard_amended_witness :
    averageDailyOf 5 0 = .fin 0
      ∧ savingsRateOf 0 7 = .fin 0
      ∧ progressOf (some 500) 0 = .inf (decide ((0 : ℚ) < 500)) :=
  ⟨(divide_guard_amended.1 5 0).2 le_rfl,
    (divide_guard_amended.2.1 0 7).2 le_rfl,
    divide_guard_amended.2.2.2 500 (by norm_num)⟩

/-! ### Association-list accumulator lemmas -/

theorem amtA_cons [DecidableEq κ] (f : α → ℚ) (k1 : κ) (v : α) (l : List (κ × α)) (k : κ) :
    amtA f ((k1, v) :: l) k = (if k1 = k then f v else 0) + amtA f l k := by
  by_cases h : k1 = k <;> simp [amtA, List.filter_cons, h]

theorem amtA_nil [DecidableEq κ] (f : α → ℚ) (k : κ) : amtA f ([] : List (κ × α)) k = 0 := by
  simp [amtA]

theorem amtA_bumpA [DecidableEq κ] (f : α → ℚ) (upd : α → α) (mk : α) (a : ℚ)
    (hupd : ∀ v, f (upd v) = f v + a) (hmk : f mk = a) :
    ∀ (l : List (κ × α)) (k0 k : κ),
      amtA f (bumpA upd mk l k0) k = amtA f l k + (if k0 = k then a else 0) := by
  intro l
  induction l with
  | nil =>
    intro k0 k
    by_cases h : k0 = k <;> simp [bumpA, amtA_cons, amtA_nil, h, hmk]
  | cons q rest ih =>
    intro k0 k
    obtain ⟨k1, v⟩ := q
    by_cases h : k1 = k0
    · subst h
      rw [show bumpA upd mk ((k1, v) :: rest) k1 = (k1, upd v) :: rest by
        simp [bumpA]]
      by_cases hk : k1 = k <;> simp [amtA_cons, hk, hupd] <;> ring
    · rw [show bumpA upd mk ((k1, v) :: rest) k0 = (k1, v) :: bumpA upd mk rest k0 by
        simp [bumpA, h]]
      rw [amtA_cons, amtA_cons, ih k0 k]
      ring

theorem keysA_nil : keysA ([] : List (κ × α)) = [] := rfl

theorem keysA_cons (p : κ × α) (l : List (κ × α)) : keysA (p :: l) = p.1 :: keysA l := rfl

theorem keysA_bumpA [DecidableEq κ] (upd : α → α) (mk : α) :
    ∀ (l : List (κ × α)) (k : κ),
      keysA (bumpA upd mk l k) = if k ∈ keysA l then keysA l else keysA l ++ [k] := by
  intro l
  induction l with
  | nil => intro k; simp [bumpA, keysA]
  | cons q rest ih =>
    intro k
    obtain ⟨k1, v⟩ := q
    by_cases h : k1 = k
    · subst h
      simp [bumpA, keysA_cons]
    · rw [show bumpA upd mk ((k1, v) :: rest) k = (k1, v) :: bumpA upd mk rest k by
        simp [bumpA, h]]
      rw [keysA_cons, keysA_cons, ih k]
      by_cases hk : k ∈ keysA rest
      · simp [hk, Ne.symm h]
      · simp [hk, Ne.symm h]

theorem nodup_bumpA [DecidableEq κ] (upd : α → α) (mk : α) (l : List (κ × α)) (k : κ)
    (h : (keysA l).Nodup) : (keysA (bumpA upd mk l k)).Nodup := by
  rw [keysA_bumpA]
  by_cases hk : k ∈ keysA l
  · simpa [hk] using h
  · simp only [hk, if_false]
    simp [List.nodup_append, h, hk]

theorem amtA_eq_zero [DecidableEq κ] (f : α → ℚ) {l : List (κ × α)} {k : κ}
    (h : k ∉ keysA l) : amtA f l k = 0 := by
  induction l with
  | nil => simp [amtA_nil]
  | cons q rest ih =>
    rw [keysA_cons, List.mem_cons] at h
    push_neg at h
    rw [amtA_cons, if_neg (Ne.symm h.1), ih h.2]
    ring

theorem amtA_of_mem [DecidableEq κ] (f : α → ℚ) :
    ∀ {l : List (κ × α)}, (keysA l).Nodup → ∀ {p : κ × α}, p ∈ l → amtA f l p.1 = f p.2 := by
  intro l
  induction l with
  | nil => intro _ p hp; cases hp
  | cons q rest ih =>
    intro hnd p hp
    rw [keysA_cons] at hnd
    rcases List.nodup_cons.mp hnd with ⟨hq, hrest⟩
    rcases List.mem_cons.mp hp with rfl | hmem
    · rw [amtA_cons, if_pos rfl, amtA_eq_zero f hq]
      ring
    · have hne : q.1 ≠ p.1 := by
        intro he
        exact hq (he ▸ List.mem_map_of_mem (fun r => r.1) hmem)
      rw [amtA_cons, if_neg hne, ih hrest hmem]
      ring

/-! ### Stable sort lemmas -/

theorem insertD_perm (le : α → α → Bool) (x : α) :
    ∀ l : List α, List.Perm (insertD le x l) (x :: l) := by
  intro l
  induction l with
  | nil => exact List.Perm.refl _
  | cons y ys ih =>
    by_cases h : le y x = true
    · rw [show insertD le x (y :: ys) = y :: insertD le x ys by simp [insertD, h]]
      exact (ih.cons y).trans (List.Perm.swap x y ys)
    · have hf : le y x = false := by revert h; cases le y x <;> simp
      rw [show insertD le x (y :: ys) = x :: y :: ys by simp [insertD, hf]]

theorem foldl_insertD_perm (le : α → α → Bool) :
    ∀ (l acc : List α),
      List.Perm (List.foldl (fun a x => insertD le x a) acc l) (acc ++ l) := by
  intro l
  induction l with
  | nil => intro acc; simp
  | cons x xs ih =>
    intro acc
    have h1 := ih (insertD le x acc)
    have h2 : List.Perm (insertD le x acc ++ xs) ((x :: acc) ++ xs) :=
      (insertD_perm le x acc).append_right xs
    have h3 : List.Perm ((x :: acc) ++ xs) (acc ++ x :: xs) := List.perm_middle.symm
    exact (h1.trans h2).trans h3

theorem sortD_perm (le : α → α → Bool) (l : List α) : List.Perm (sortD le l) l :=
  (foldl_insertD_perm le l []).trans (by simp)

theorem mem_insertD (le : α → α → Bool) (x : α) (l : List α) (a : α) :
    a ∈ insertD le x l ↔ a = x ∨ a ∈ l := by
  rw [(insertD_perm le x l).mem_iff]
  simp

theorem pairwise_insertD (le : α → α → Bool)
    (htrans : ∀ a b c, le a b = true → le b c = true → le a c = true)
    (htot : ∀ a b, le a b = true ∨ le b a = true) (x : α) :
    ∀ l : List α, l.Pairwise (fun a b => le a b = true)
      → (insertD le x l).Pairwise (fun a b => le a b = true) := by
  intro l
  induction l with
  | nil =>
    intro _
    rw [show insertD le x [] = [x] from rfl]
    exact List.pairwise_singleton _ x
  | cons y ys ih =>
    intro hp
    rcases List.pairwise_cons.mp hp with ⟨hy, hys⟩
    by_cases h : le y x = true
    · rw [show insertD le x (y :: ys) = y :: insertD le x ys by simp [insertD, h]]
      refine List.pairwise_cons.mpr ⟨?_, ih hys⟩
      intro b hb
      rcases (mem_insertD le x ys b).mp hb with rfl | hbys
      · exact h
      · exact hy b hbys
    · have hf : le y x = false := by revert h; cases le y x <;> simp
      rw [show insertD le x (y :: ys) = x :: y :: ys by simp [insertD, hf]]
      have hxy : le x y = true := (htot x y).resolve_right (by simp [hf])
      refine List.pairwise_cons.mpr ⟨?_, hp⟩
      intro b hb
      rcases List.mem_cons.mp hb with rfl | hbys
      · exact hxy
      · exact htrans x y b hxy (hy b hbys)

theorem sortD_pairwise (le : α → α → Bool)
    (htrans : ∀ a b c, le a b = true → le b c = true → le a c = true)
    (htot : ∀ a b, le a b = true ∨ le b a = true) :
    ∀ (l acc : List α), acc.Pairwise (fun a b => le a b = true)
      → (List.foldl (fun a x => insertD le x a) acc l).Pairwise (fun a b => le a b = true) := by
  intro l
  induction l with
  | nil => intro acc h; exact h
  | cons x xs ih =>
    intro acc h
    exact ih (insertD le x acc) (pairwise_insertD le htrans htot x acc h)

/-! ### The category accumulator computes per-name sums -/

theorem catTotal_cons (e : RExpense) (es : List RExpense) (k : String) :
    catTotal (e :: es) k
      = (match e.categories with
          | some c => if c.name = k then jsNum e.amount else 0
          | none => 0) + catTotal es k := by
  cases hc : e.categories with
  | none => simp [catTotal, List.filter_cons, hc]
  | some c =>
    by_cases h : c.name = k <;> simp [catTotal, List.filter_cons, hc, h]

theorem categoryEntries_amt_aux :
    ∀ (es : List RExpense) (acc : List (String × ℚ × String)) (k : String),
      amtA Prod.fst (es.foldl
          (fun acc e =>
            match e.categories with
            | none => acc
            | some c => bumpCat acc c.name (jsNum e.amount) c.color) acc) k
        = amtA Prod.fst acc k + catTotal es k := by
  intro es
  induction es with
  | nil =>
    intro acc k
    simp [catTotal]
  | cons e es ih =>
    intro acc k
    rw [List.foldl_cons, catTotal_cons]
    cases hc : e.categories with
    | none =>
      simp only [hc]
      rw [ih acc k]
      ring
    | some c =>
      simp only [hc]
      rw [ih (bumpCat acc c.name (jsNum e.amount) c.color) k]
      unfold bumpCat
      rw [amtA_bumpA Prod.fst _ _ (jsNum e.amount) (fun v => rfl) rfl acc c.name k]
      ring

theorem categoryEntries_amt (es : List RExpense) (k : String) :
    amtA Prod.fst (categoryEntries es) k = catTotal es k := by
  have h := categoryEntries_amt_aux es [] k
  rw [amtA_nil] at h
  rw [categoryEntries]
  rw [h]
  ring

theorem categoryEntries_nodup_aux :
    ∀ (es : List RExpense) (acc : List (String × ℚ × String)),
      (keysA acc).Nodup →
      (keysA (es.foldl
          (fun acc e =>
            match e.categories with
            | none => acc
            | some c => bumpCat acc c.name (jsNum e.amount) c.color) acc)).Nodup := by
  intro es
  induction es with
  | nil => intro acc h; exact h
  | cons e es ih =>
    intro acc h
    rw [List.foldl_cons]
    cases hc : e.categories with
    | none => simp only [hc]; exact ih acc h
    | some c =>
      simp only [hc]
      exact ih _ (nodup_bumpA _ _ acc c.name h)

theorem categoryEntries_nodup (es : List RExpense) :
    (keysA (categoryEntries es)).Nodup :=
  categoryEntries_nodup_aux es [] (by simp [keysA])

theorem categoryEntries_keys_aux :
    ∀ (es : List RExpense) (acc : List (String × ℚ × String)) (k : String),
      k ∈ keysA (es.foldl
          (fun acc e =>
            match e.categories with
            | none => acc
            | some c => bumpCat acc c.name (jsNum e.amount) c.color) acc) →
        k ∈ keysA acc ∨ ∃ e ∈ es, ∃ c, e.categories = some c ∧ c.name = k := by
  intro es
  induction es with
  | nil => intro acc k h; exact Or.inl h
  | cons e es ih =>
    intro acc k h
    rw [List.foldl_cons] at h
    cases hc : e.categories with
    | none =>
      rw [hc] at h
      rcases ih acc k h with hacc | ⟨e', he', c', hc', hn⟩
      · exact Or.inl hacc
      · exact Or.inr ⟨e', List.mem_cons_of_mem e he', c', hc', hn⟩
    | some c =>
      rw [hc] at h
      rcases ih _ k h with hacc | ⟨e', he', c', hc', hn⟩
      · unfold bumpCat at hacc
        rw [keysA_bumpA] at hacc
        by_cases hmem : c.name ∈ keysA acc
        · rw [if_pos hmem] at hacc
          exact Or.inl hacc
        · rw [if_neg hmem] at hacc
          rcases List.mem_append.mp hacc with h1 | h2
          · exact Or.inl h1
          · refine Or.inr ⟨e, List.mem_cons_self e es, c, hc, ?_⟩
            exact (show k = c.name by simpa using h2).symm
      · exact Or.inr ⟨e', List.mem_cons_of_mem e he', c', hc', hn⟩

theorem categoryEntries_keys (es : List RExpense) (k : String)
    (h : k ∈ keysA (categoryEntries es)) :
    ∃ e ∈ es, ∃ c, e.categories = some c ∧ c.name = k := by
  rcases categoryEntries_keys_aux es [] k h with habs | hgood
  · simp [keysA] at habs
  · exact hgood

/-- Every row of the breakdown is the image of an accumulator entry. -/
theorem breakdown_mem (es : List RExpense) {r : CategoryData}
    (hr : r ∈ categoryBreakdown es) :
    ∃ p ∈ categoryEntries es,
      r = ⟨p.1, p.2.1, p.2.2,
        if 0 < totalExpensesOf es then p.2.1 / totalExpensesOf es * 100 else 0⟩ := by
  have hr1 := List.take_subset 6 _ hr
  have hr2 := (sortD_perm catDesc _).mem_iff.mp hr1
  rcases List.mem_map.mp hr2 with ⟨p, hp, heq⟩
  exact ⟨p, hp, heq.symm⟩

theorem catDesc_trans (a b c : CategoryData) :
    catDesc a b = true → catDesc b c = true → catDesc a c = true := by
  unfold catDesc
  intro h1 h2
  exact decide_eq_true (le_trans (of_decide_eq_true h2) (of_decide_eq_true h1))

theorem catDesc_total (a b : CategoryData) : catDesc a b = true ∨ catDesc b a = true := by
  unfold catDesc
  rcases le_total b.amount a.amount with h | h
  · exact Or.inl (decide_eq_true h)
  · exact Or.inr (decide_eq_true h)

/-- Claim C5: the category breakdown sums amounts per category name,
assigns the guarded percentage share of the grand total, is sorted in
descending order of amount, and keeps at most the top six rows, every
kept row originating from a category present on some expense (nothing is
merged into an artificial bucket). -/
theorem category_breakdown_spec (es : List RExpense) :
    (∀ r ∈ categoryBreakdown es,
        r.amount = catTotal es r.name
          ∧ r.percentage = (if 0 < totalExpensesOf es
              then r.amount / totalExpensesOf es * 100 else 0)
          ∧ ∃ e ∈ es, ∃ c, e.categories = some c ∧ c.name = r.name)
      ∧ (categoryBreakdown es).Pairwise (fun a b => b.amount ≤ a.amount)
      ∧ (categoryBreakdown es).length = min 6 (categoryEntries es).length := by
  refine ⟨?_, ?_, ?_⟩
  · intro r hr
    rcases breakdown_mem es hr with ⟨p, hp, rfl⟩
    refine ⟨?_, rfl, ?_⟩
    · show p.2.1 = catTotal es p.1
      rw [← categoryEntries_amt es p.1,
        amtA_of_mem Prod.fst (categoryEntries_nodup es) hp]
    · exact categoryEntries_keys es p.1 (List.mem_map_of_mem (fun q => q.1) hp)
  · have hP := sortD_pairwise catDesc catDesc_trans catDesc_total
      ((categoryEntries es).map fun p =>
        (⟨p.1, p.2.1, p.2.2,
          if 0 < totalExpensesOf es then p.2.1 / totalExpensesOf es * 100 else 0⟩
          : CategoryData)) [] List.Pairwise.nil
    have hT : (categoryBreakdown es).Pairwise (fun a b => catDesc a b = true) :=
      hP.sublist (List.take_sublist 6 _)
    exact hT.imp fun h => of_decide_eq_true h
  · rw [categoryBreakdown, List.length_take, (sortD_perm catDesc _).length_eq,
      List.length_map]

/-- Claim C5 witness: the worked example of spec section 8 produces the
Food and Travel rows with amounts 80 and 20 and shares 80 and 20. -/
theorem category_breakdown_witness :
    (categoryBreakdown sampleReport).length = min 6 (categoryEntries sampleReport).length
      ∧ (∀ r ∈ categoryBreakdown sampleReport,
          r.amount = catTotal sampleReport r.name
            ∧ r.percentage = (if 0 < totalExpensesOf sampleReport
                then r.amount / totalExpensesOf sampleReport * 100 else 0)
            ∧ ∃ e ∈ sampleReport, ∃ c, e.categories = some c ∧ c.name = r.name) :=
  ⟨(category_breakdown_spec sampleReport).2.2,
    (category_breakdown_spec sampleReport).1⟩

/-- Claim C9 counterexample: an expense with no category is counted in
the grand total but produces no breakdown row at all, in particular no
uncategorized bucket. -/
theorem uncategorized_bucket_cex :
    categoryBreakdown [⟨some 50, ⟨2024, 3, 1⟩, none⟩] = []
      ∧ totalExpensesOf [⟨some 50, ⟨2024, 3, 1⟩, none⟩] = 50 := by
  constructor
  · rfl
  · simp [totalExpensesOf, jsNum]

/-- Claim C9 amended: a missing amount is coerced to 0 by Number(null)
and so contributes nothing to the spent sum or the report total, while an
expense with no category keeps contributing to the grand total but is
omitted from the category breakdown; no uncategorized bucket exists, as
every breakdown row carries the name of a category present on some
expense. -/
theorem missing_fields_amended :
    jsNum none = 0
      ∧ (∀ (es : List RExpense) (d : Date) (c : Option CatRef),
          totalExpensesOf (⟨none, d, c⟩ :: es) = totalExpensesOf es)
      ∧ (∀ (db : List ExpenseRow) (uid : String) (cd : Date) (b : Budget) (e : ExpenseRow),
          e.amount = none → spentOf (e :: db) uid cd b = spentOf db uid cd b)
      ∧ (∀ (es : List RExpense) (d : Date),
          totalExpensesOf (⟨some 50, d, none⟩ :: es) = 50 + totalExpensesOf es)
      ∧ (∀ (es : List RExpense) (r : CategoryData), r ∈ categoryBreakdown es →
          ∃ e ∈ es, ∃ c, e.categories = some c ∧ c.name = r.name) := by
  refine ⟨rfl, ?_, ?_, ?_, ?_⟩
  · intro es d c
    simp [totalExpensesOf, jsNum]
  · intro db uid cd b e he
    unfold spentOf
    rw [List.filter_cons]
    by_cases hpass : (matchesWindow uid b (resolveEnd cd b) e && categoryFilter b e) = true
    · simp [hpass, jsNum, he]
    · simp [hpass]
  · intro es d
    simp [totalExpensesOf, jsNum]
  · intro es r hr
    rcases breakdown_mem es hr with ⟨p, hp, rfl⟩
    exact categoryEntries_keys es p.1 (List.mem_map_of_mem (fun q => q.1) hp)

/-- Claim C9 amended witness: prepending a null-amount expense leaves the
sample spent sum unchanged, and a missing category drops out of the
breakdown. -/
theorem missing_fields_witness :
    spentOf (⟨"u", none, ⟨2024, 2, 20⟩, some "cat-1"⟩ :: sampleDb) "u" sampleToday
        sampleBudgetFood
      = spentOf sampleDb "u" sampleToday sampleBudgetFood
      ∧ totalExpensesOf [(⟨none, ⟨2024, 3, 1⟩, none⟩ : RExpense)] = totalExpensesOf [] :=
  ⟨missing_fields_amended.2.2.1 sampleDb "u" sampleToday sampleBudgetFood
      ⟨"u", none, ⟨2024, 2, 20⟩, some "cat-1"⟩ rfl,
    missing_fields_amended.2.1 [] ⟨2024, 3, 1⟩ none⟩

/-! ### The daily accumulator computes per-day sums -/

theorem lookupDay_cons (p : Date × ℚ) (rest : List (Date × ℚ)) (k : Date) :
    lookupDay (p :: rest) k = if p.1 = k then p.2 else lookupDay rest k := by
  by_cases h : p.1 = k
  · rw [if_pos h]
    unfold lookupDay
    rw [List.find?_cons_of_pos _ (by simp [h])]
  · rw [if_neg h]
    unfold lookupDay
    rw [List.find?_cons_of_neg _ (by simp [h])]

theorem lookupDay_amt :
    ∀ (m : List (Date × ℚ)), (keysA m).Nodup → ∀ k, lookupDay m k = amtA id m k := by
  intro m
  induction m with
  | nil =>
    intro _ k
    rw [show lookupDay [] k = 0 from rfl, amtA_nil]
  | cons p rest ih =>
    intro hnd k
    rw [keysA_cons] at hnd
    rcases List.nodup_cons.mp hnd with ⟨hq, hrest⟩
    rw [lookupDay_cons, amtA_cons]
    by_cases h : p.1 = k
    · rw [if_pos h, if_pos h, amtA_eq_zero id (h ▸ hq)]
      simp
    · rw [if_neg h, if_neg h, ih hrest k]
      ring

theorem dayTotal_cons (s : Date) (e : RExpense) (es : List RExpense) (k : Date) :
    dayTotal s (e :: es) k
      = (if dayNumber s ≤ dayNumber e.expense_date ∧ e.expense_date = k
          then jsNum e.amount else 0) + dayTotal s es k := by
  by_cases h2 : e.expense_date = k
  · subst h2
    by_cases h1 : dayNumber s ≤ dayNumber e.expense_date <;>
      simp [dayTotal, List.filter_cons, h1]
  · by_cases h1 : dayNumber s ≤ dayNumber e.expense_date <;>
      simp [dayTotal, List.filter_cons, h1, h2]

theorem dailyMap_amt_aux (s : Date) :
    ∀ (es : List RExpense) (acc : List (Date × ℚ)) (k : Date),
      amtA id (es.foldl
          (fun acc e =>
            if dayNumber s ≤ dayNumber e.expense_date then
              bumpDay acc e.expense_date (jsNum e.amount)
            else acc) acc) k
        = amtA id acc k + dayTotal s es k := by
  intro es
  induction es with
  | nil =>
    intro acc k
    simp [dayTotal]
  | cons e es ih =>
    intro acc k
    rw [List.foldl_cons, dayTotal_cons]
    by_cases h1 : dayNumber s ≤ dayNumber e.expense_date
    · rw [if_pos h1]
      rw [ih (bumpDay acc e.expense_date (jsNum e.amount)) k]
      unfold bumpDay
      rw [amtA_bumpA id (fun q => q + jsNum e.amount) (jsNum e.amount) (jsNum e.amount)
        (fun v => rfl) rfl acc e.expense_date k]
      by_cases h2 : e.expense_date = k
      · rw [if_pos h2, if_pos ⟨h1, h2⟩]
        ring
      · rw [if_neg h2, if_neg (by tauto)]
        ring
    · rw [if_neg h1]
      rw [ih acc k, if_neg (by tauto)]
      ring

theorem dailyMap_amt (s : Date) (es : List RExpense) (k : Date) :
    amtA id (dailyMap s es) k = dayTotal s es k := by
  have h := dailyMap_amt_aux s es [] k
  rw [amtA_nil] at h
  rw [dailyMap, h]
  ring

theorem dailyMap_nodup_aux (s : Date) :
    ∀ (es : List RExpense) (acc : List (Date × ℚ)),
      (keysA acc).Nodup →
      (keysA (es.foldl
          (fun acc e =>
            if dayNumber s ≤ dayNumber e.expense_date then
              bumpDay acc e.expense_date (jsNum e.amount)
            else acc) acc)).Nodup := by
  intro es
  induction es with
  | nil => intro acc h; exact h
  | cons e es ih =>
    intro acc h
    rw [List.foldl_cons]
    by_cases h1 : dayNumber s ≤ dayNumber e.expense_date
    · rw [if_pos h1]
      exact ih _ (nodup_bumpA _ _ acc e.expense_date h)
    · rw [if_neg h1]
      exact ih acc h

theorem dailyMap_nodup (s : Date) (es : List RExpense) :
    (keysA (dailyMap s es)).Nodup :=
  dailyMap_nodup_aux s es [] (by simp [keysA])

theorem sum_split (f : α → ℚ) (p q : α → Bool)
    (hdisj : ∀ e, ¬(p e = true ∧ q e = true)) :
    ∀ es : List α,
      ((es.filter fun e => p e || q e).map f).sum
        = ((es.filter p).map f).sum + ((es.filter q).map f).sum := by
  intro es
  induction es with
  | nil => simp
  | cons e es ih =>
    by_cases hp : p e = true
    · have hq : ¬ q e = true := fun hq => hdisj e ⟨hp, hq⟩
      simp only [List.filter_cons, hp, hq]
      simp [ih]
      ring
    · by_cases hq : q e = true
      · simp only [List.filter_cons, hp, hq]
        simp [hp, ih]
        ring
      · simp only [List.filter_cons, hp, hq]
        simp [hp, hq, ih]

theorem sum_dayTotal_keys (s : Date) (es : List RExpense) :
    ∀ ks : List Date, ks.Nodup →
      (ks.map fun k => dayTotal s es k).sum
        = ((es.filter fun e =>
            decide (dayNumber s ≤ dayNumber e.expense_date)
              && decide (e.expense_date ∈ ks)).map fun e => jsNum e.amount).sum := by
  intro ks
  induction ks with
  | nil =>
    intro _
    simp
  | cons k ks ih =>
    intro hnd
    rcases List.nodup_cons.mp hnd with ⟨hk, hks⟩
    rw [List.map_cons, List.sum_cons, ih hks]
    have hcong : (es.filter fun e =>
        decide (dayNumber s ≤ dayNumber e.expense_date)
          && decide (e.expense_date ∈ k :: ks))
        = es.filter fun e =>
            (decide (dayNumber s ≤ dayNumber e.expense_date)
              && decide (e.expense_date = k))
            || (decide (dayNumber s ≤ dayNumber e.expense_date)
              && decide (e.expense_date ∈ ks)) := by
      refine List.filter_congr ?_
      intro e _
      by_cases h1 : dayNumber s ≤ dayNumber e.expense_date <;>
        by_cases h2 : e.expense_date = k <;>
        by_cases h3 : e.expense_date ∈ ks <;>
        simp [h1, h2, h3] <;> tauto
    rw [hcong, sum_split (fun e => jsNum e.amount) _ _ ?_ es]
    · rfl
    · intro e ⟨hA, hB⟩
      simp only [Bool.and_eq_true, decide_eq_true_eq] at hA hB
      exact hk (hA.2 ▸ hB.2)

/-- Claim C6: for every window the trend array has one entry per calendar
day, inclusive day count many entries, entries of days with no expense
are 0, and the entries sum to the total of the expenses dated inside the
window. -/
theorem daily_trend_spec (s endD : Date) (es : List RExpense)
    (hs : s.valid) (hes : ∀ x ∈ es, x.expense_date.valid)
    (hw : dayNumber s ≤ dayNumber endD) :
    (trendArray s endD es).length = (dayNumber endD - dayNumber s + 1).toNat
      ∧ (∀ p ∈ trendArray s endD es,
          (∀ x ∈ es, x.expense_date ≠ p.1) → p.2 = 0)
      ∧ ((trendArray s endD es).map fun p => p.2).sum
        = ((es.filter fun x =>
            decide (dayNumber s ≤ dayNumber x.expense_date)
              && decide (dayNumber x.expense_date ≤ dayNumber endD)).map
            fun x => jsNum x.amount).sum := by
  refine ⟨?_, ?_, ?_⟩
  · simp only [trendArray, List.length_map, List.length_reverse, List.length_range,
      daysInPeriodOf]
  · intro p hp hno
    rcases List.mem_map.mp hp with ⟨i, hi, rfl⟩
    show lookupDay (dailyMap s es) (addDays s (i : Int)) = 0
    rw [lookupDay_amt _ (dailyMap_nodup s es), dailyMap_amt]
    unfold dayTotal
    rw [show (es.filter fun e =>
        decide (dayNumber s ≤ dayNumber e.expense_date)
          && decide (e.expense_date = addDays s (i : Int))) = [] from ?_]
    · simp
    · rw [List.filter_eq_nil_iff]
      intro x hx
      simp only [Bool.and_eq_true, decide_eq_true_eq, not_and]
      intro _
      exact hno x hx
  · rw [show ((trendArray s endD es).map fun p => p.2)
        = ((List.range (daysInPeriodOf s endD).toNat).reverse).map
            (fun (i : Nat) => lookupDay (dailyMap s es) (addDays s (i : Int))) by
      simp only [trendArray, List.map_map]
      rfl]
    rw [List.map_reverse, List.sum_reverse]
    rw [show (List.map (fun (i : Nat) => lookupDay (dailyMap s es) (addDays s (i : Int)))
          (List.range (daysInPeriodOf s endD).toNat))
        = ((List.range (daysInPeriodOf s endD).toNat).map
            (fun (i : Nat) => addDays s (i : Int))).map (fun k => dayTotal s es k) by
      rw [List.map_map]
      refine List.map_congr_left ?_
      intro i _
      rw [Function.comp_apply, lookupDay_amt _ (dailyMap_nodup s es), dailyMap_amt]]
    have hNat : ((daysInPeriodOf s endD).toNat : Int) = daysInPeriodOf s endD := by
      unfold daysInPeriodOf
      omega
    have hnodup : (((List.range (daysInPeriodOf s endD).toNat).map
        (fun (i : Nat) => addDays s (i : Int)))).Nodup := by
      refine List.Nodup.map_on ?_ (List.nodup_range _)
      intro i hi j hj hij
      have h1 := (addDays_spec hs (i : Int)).2
      have h2 := (addDays_spec hs (j : Int)).2
      rw [hij] at h1
      omega
    rw [sum_dayTotal_keys s es _ hnodup]
    refine congrArg _ (congrArg _ ?_)
    refine List.filter_congr ?_
    intro x hx
    by_cases h1 : dayNumber s ≤ dayNumber x.expense_date
    · have hdec : decide (x.expense_date
          ∈ (List.range (daysInPeriodOf s endD).toNat).map
              (fun (i : Nat) => addDays s (i : Int)))
          = decide (dayNumber x.expense_date ≤ dayNumber endD) := by
        rw [decide_eq_decide]
        constructor
        · intro hmem
          rcases List.mem_map.mp hmem with ⟨i, hi, heq⟩
          rw [List.mem_range] at hi
          have hdn := (addDays_spec hs (i : Int)).2
          rw [← heq, hdn]
          unfold daysInPeriodOf at hi
          omega
        · intro hle
          refine List.mem_map.mpr
            ⟨(dayNumber x.expense_date - dayNumber s).toNat, List.mem_range.mpr ?_, ?_⟩
          · unfold daysInPeriodOf
            omega
          · have hvAdd := addDays_spec hs
              ((dayNumber x.expense_date - dayNumber s).toNat : Int)
            refine dayNumber_inj hvAdd.1 (hes x hx) ?_
            rw [hvAdd.2]
            omega
      rw [hdec]
    · simp [h1]

/-- Claim C6 witness: a three-day March window around a single expense
has three entries summing to that expense. -/
theorem daily_trend_witness :
    (trendArray ⟨2024, 3, 1⟩ ⟨2024, 3, 3⟩ [⟨some 5, ⟨2024, 3, 2⟩, none⟩]).length
        = (dayNumber ⟨2024, 3, 3⟩ - dayNumber ⟨2024, 3, 1⟩ + 1).toNat
      ∧ ((trendArray ⟨2024, 3, 1⟩ ⟨2024, 3, 3⟩ [⟨some 5, ⟨2024, 3, 2⟩, none⟩]).map
          fun p => p.2).sum
        = (([(⟨some 5, ⟨2024, 3, 2⟩, none⟩ : RExpense)].filter fun x =>
            decide (dayNumber ⟨2024, 3, 1⟩ ≤ dayNumber x.expense_date)
              && decide (dayNumber x.expense_date ≤ dayNumber ⟨2024, 3, 3⟩)).map
            fun x => jsNum x.amount).sum :=
  ⟨(daily_trend_spec ⟨2024, 3, 1⟩ ⟨2024, 3, 3⟩ [⟨some 5, ⟨2024, 3, 2⟩, none⟩]
      (by decide) (by decide) (by decide)).1,
    (daily_trend_spec ⟨2024, 3, 1⟩ ⟨2024, 3, 3⟩ [⟨some 5, ⟨2024, 3, 2⟩, none⟩]
      (by decide) (by decide) (by decide)).2.2⟩

/-- Claim C7 counterexample: on the two-day window March 1-2 the trend
array lists March 2 first, so its first entry is the latest calendar day
of the span, not the earliest. -/
theorem trend_order_claim_cex :
    ((trendArray ⟨2024, 3, 1⟩ ⟨2024, 3, 2⟩ []).map fun p => p.1)
        = [⟨2024, 3, 2⟩, ⟨2024, 3, 1⟩]
      ∧ dayNumber ⟨2024, 3, 1⟩ < dayNumber ⟨2024, 3, 2⟩ := by
  constructor
  · rfl
  · decide

/-- Claim C7 amended: the trend entries are in reverse chronological
order: the k-th entry is the calendar day k days before the window end,
so the first entry is the latest day of the span and each subsequent
entry is the preceding calendar day. -/
theorem trend_reverse_chronological (s e : Date) (es : List RExpense) (hs : s.valid)
    (k : Nat) (hk : k < (trendArray s e es).length) :
    dayNumber ((trendArray s e es).get ⟨k, hk⟩).1 = dayNumber e - k := by
  have hlen : (trendArray s e es).length = (daysInPeriodOf s e).toNat := by
    simp only [trendArray, List.length_map, List.length_reverse, List.length_range]
  have hkN : k < (daysInPeriodOf s e).toNat := hlen ▸ hk
  have hget : ((trendArray s e es).get ⟨k, hk⟩).1
      = addDays s ((((daysInPeriodOf s e).toNat - 1 - k : Nat)) : Int) := by
    simp only [List.get_eq_getElem, trendArray, List.getElem_map, List.getElem_reverse,
      List.length_range, List.getElem_range]
  rw [hget]
  have hdn := (addDays_spec hs
    (((daysInPeriodOf s e).toNat - 1 - k : Nat) : Int)).2
  rw [hdn]
  unfold daysInPeriodOf at hkN ⊢
  omega

/-- Claim C7 amended witness: in the three-day window the entry at index
1 is the day before the window end. -/
theorem trend_reverse_witness :
    dayNumber ((trendArray ⟨2024, 3, 1⟩ ⟨2024, 3, 3⟩ []).get
        ⟨1, by decide⟩).1 = dayNumber ⟨2024, 3, 3⟩ - 1 :=
  trend_reverse_chronological ⟨2024, 3, 1⟩ ⟨2024, 3, 3⟩ [] (by decide) 1 (by decide)

end WealthWhisperer
